import Mathlib

/-!
Verification of the RSS-to-Telegram batch job (`src/main.go`).

The development shallowly embeds the deduplication-and-delivery pipeline of
`main.go`: the identity hasher (`hash`, a hex-rendered SHA-256 over the UTF-8
bytes of the input string), the seen-set store (`loadState` / `saveState` over
`state.json`, modelled at the file-interface level), and the run controller
(`main`'s nested loop over feeds and items with the per-run cap, oldest-first
iteration, skip-if-seen, mark-seen-on-success and deferred final save).

Network collaborators (feed fetching, article enrichment, the AI summarizer and
the Telegram send) are modelled as oracles supplied to the run: the controller
only branches on whether `sendToTelegram` returned nil, which the oracle's
`SendResult` classification (`success` vs. `rateLimited`/`failed`) refines
without changing the branch structure (`err == nil` iff `success`).

Machine words are `Nat` with explicit `% 2^32` where 32-bit overflow matters.
-/

namespace RSSBot

/-! ## Bytes, 32-bit words and SHA-256 (Go `crypto/sha256.Sum256`) -/

/-- 2^32, the modulus for 32-bit words. -/
def U32 : Nat := 4294967296

/-- 32-bit addition. -/
def add32 (a b : Nat) : Nat := (a + b) % U32

/-- 32-bit right rotation by `n` (0 < n < 32) of a word `x < 2^32`. -/
def rotr32 (x n : Nat) : Nat := ((x >>> n) ||| (x <<< (32 - n))) % U32

/-- 32-bit bitwise complement. -/
def not32 (x : Nat) : Nat := x ^^^ (U32 - 1)

/-- SHA-256 round constants. -/
def sha256K : List Nat :=
  [1116352408, 1899447441, 3049323471, 3921009573, 961987163,
   1508970993, 2453635748, 2870763221, 3624381080, 310598401,
   607225278, 1426881987, 1925078388, 2162078206, 2614888103,
   3248222580, 3835390401, 4022224774, 264347078, 604807628,
   770255983, 1249150122, 1555081692, 1996064986, 2554220882,
   2821834349, 2952996808, 3210313671, 3336571891, 3584528711,
   113926993, 338241895, 666307205, 773529912, 1294757372,
   1396182291, 1695183700, 1986661051, 2177026350, 2456956037,
   2730485921, 2820302411, 3259730800, 3345764771, 3516065817,
   3600352804, 4094571909, 275423344, 430227734, 506948616,
   659060556, 883997877, 958139571, 1322822218, 1537002063,
   1747873779, 1955562222, 2024104815, 2227730452, 2361852424,
   2428436474, 2756734187, 3204031479, 3329325298]

/-- The eight 32-bit state registers of SHA-256. -/
structure Hash8 where
  r0 : Nat
  r1 : Nat
  r2 : Nat
  r3 : Nat
  r4 : Nat
  r5 : Nat
  r6 : Nat
  r7 : Nat
deriving Repr, DecidableEq

/-- SHA-256 initial hash value. -/
def sha256H0 : Hash8 :=
  ⟨1779033703, 3144134277, 1013904242, 2773480762, 1359893119, 2600822924, 528734635, 1541459225⟩

/-- Group a byte list into big-endian 32-bit words, four bytes per word. -/
def toWords : List Nat → List Nat
  | a :: b :: c :: d :: rest => (((a * 256 + b) * 256 + c) * 256 + d) :: toWords rest
  | _ => []

/-- The next word of the SHA-256 message schedule, extending a schedule `w`. -/
def scheduleWord (w : List Nat) : Nat :=
  let n := w.length
  let w15 := w.getD (n - 15) 0
  let w2 := w.getD (n - 2) 0
  let s0 := rotr32 w15 7 ^^^ rotr32 w15 18 ^^^ (w15 >>> 3)
  let s1 := rotr32 w2 17 ^^^ rotr32 w2 19 ^^^ (w2 >>> 10)
  (w.getD (n - 16) 0 + s0 + w.getD (n - 7) 0 + s1) % U32

/-- Extend the 16-word schedule by `n` further words. -/
def extendSchedule (w : List Nat) : Nat → List Nat
  | 0 => w
  | n + 1 => extendSchedule (w ++ [scheduleWord w]) n

/-- One SHA-256 compression round with round constant `k` and schedule word `w`. -/
def sha256Round (st : Hash8) (kw : Nat × Nat) : Hash8 :=
  let s1 := rotr32 st.r4 6 ^^^ rotr32 st.r4 11 ^^^ rotr32 st.r4 25
  let ch := (st.r4 &&& st.r5) ^^^ (not32 st.r4 &&& st.r6)
  let temp1 := (st.r7 + s1 + ch + kw.1 + kw.2) % U32
  let s0 := rotr32 st.r0 2 ^^^ rotr32 st.r0 13 ^^^ rotr32 st.r0 22
  let maj := (st.r0 &&& st.r1) ^^^ (st.r0 &&& st.r2) ^^^ (st.r1 &&& st.r2)
  let temp2 := (s0 + maj) % U32
  ⟨(temp1 + temp2) % U32, st.r0, st.r1, st.r2, (st.r3 + temp1) % U32, st.r4, st.r5, st.r6⟩

/-- Process one 64-byte chunk: schedule expansion, 64 rounds, feed-forward add. -/
def sha256Compress (h : Hash8) (chunk : List Nat) : Hash8 :=
  let w := extendSchedule (toWords chunk) 48
  let st := (sha256K.zip w).foldl sha256Round h
  ⟨add32 h.r0 st.r0, add32 h.r1 st.r1, add32 h.r2 st.r2, add32 h.r3 st.r3,
   add32 h.r4 st.r4, add32 h.r5 st.r5, add32 h.r6 st.r6, add32 h.r7 st.r7⟩

/-- Process all 64-byte chunks of a padded message. -/
def sha256Chunks (h : Hash8) (bs : List Nat) : Hash8 :=
  if _hlen : bs.length < 64 then h
  else sha256Chunks (sha256Compress h (bs.take 64)) (bs.drop 64)
termination_by bs.length
decreasing_by
  simp only [List.length_drop]
  omega

/-- SHA-256 padding: append `0x80`, zeros to 56 mod 64, then the 64-bit
big-endian bit length. -/
def sha256Pad (msg : List Nat) : List Nat :=
  let L := msg.length
  let z := (55 + 64 - L % 64) % 64
  let bitLen := 8 * L
  msg ++ [0x80] ++ List.replicate z 0 ++
    [bitLen >>> 56 % 256, bitLen >>> 48 % 256, bitLen >>> 40 % 256, bitLen >>> 32 % 256,
     bitLen >>> 24 % 256, bitLen >>> 16 % 256, bitLen >>> 8 % 256, bitLen % 256]

/-- Big-endian byte decomposition of a 32-bit word. -/
def wordBytes (w : Nat) : List Nat :=
  [w >>> 24 % 256, w >>> 16 % 256, w >>> 8 % 256, w % 256]

/-- The 32 digest bytes of a final SHA-256 state. -/
def digestBytes (h : Hash8) : List Nat :=
  wordBytes h.r0 ++ wordBytes h.r1 ++ wordBytes h.r2 ++ wordBytes h.r3 ++
  wordBytes h.r4 ++ wordBytes h.r5 ++ wordBytes h.r6 ++ wordBytes h.r7

/-- SHA-256 of a byte list (Go `sha256.Sum256`). -/
def sha256 (msg : List Nat) : List Nat :=
  digestBytes (sha256Chunks sha256H0 (sha256Pad msg))

/-- UTF-8 encoding of one character (Go `[]byte(s)` uses UTF-8). -/
def utf8EncodeChar (c : Char) : List Nat :=
  let n := c.toNat
  if n < 128 then [n]
  else if n < 2048 then [192 + n / 64, 128 + n % 64]
  else if n < 65536 then [224 + n / 4096, 128 + n / 64 % 64, 128 + n % 64]
  else [240 + n / 262144, 128 + n / 4096 % 64, 128 + n / 64 % 64, 128 + n % 64]

/-- UTF-8 encoding of a string as a byte list. -/
def utf8Encode (s : String) : List Nat := s.data.flatMap utf8EncodeChar

/-- Lowercase hex digit for `n < 16`. -/
def hexDigitChar (n : Nat) : Char :=
  if n < 10 then Char.ofNat (48 + n) else Char.ofNat (87 + n)

/-- Lowercase hex rendering of a byte list (Go `hex.EncodeToString`). -/
def hexEncode (bs : List Nat) : String :=
  String.mk (bs.flatMap (fun b => [hexDigitChar (b / 16), hexDigitChar (b % 16)]))

/-- `hash` from `src/main.go` lines 187-190: hex-encoded SHA-256 of the string. -/
def hash (s : String) : String := hexEncode (sha256 (utf8Encode s))

/-! ## Data model: items, seen-set, persisted state file -/

/-- `Item` from `src/main.go` lines 142-146. -/
structure Item where
  title : String
  link : String
  description : String
deriving Repr, DecidableEq

/-- The in-memory seen-set, Go's `map[string]bool`, as an association list with
at most one entry per key (an invariant every Go map enjoys by construction). -/
abbrev SeenSet := List (String × Bool)

/-- Go map read `state[id]`: the stored value, or `false` when absent. -/
def SeenSet.get : SeenSet → String → Bool
  | [], _ => false
  | (k', v) :: rest, k => if k' = k then v else SeenSet.get rest k

/-- Go map write `state[id] = v`: replace the entry if present, else add it. -/
def SeenSet.set : SeenSet → String → Bool → SeenSet
  | [], k, v => [(k, v)]
  | (k', v') :: rest, k, v =>
      if k' = k then (k', v) :: rest else (k', v') :: SeenSet.set rest k v

/-- The item identity computed by the run controller, `src/main.go` line 362:
`id := hash(item.Link)`. -/
def itemId (i : Item) : String := hash i.link

/-- The persisted `state.json` as seen through `os.ReadFile` + `json.Unmarshal`
(standard-library collaborators, modelled at the interface): the file is
absent; unreadable; readable but not syntactically valid JSON
(`json.Unmarshal` runs its validity check first and reports an error without
decoding anything); readable, syntactically valid JSON that is not a
well-typed `map[string]bool` — here Go decodes as best it can, storing the
well-typed boolean entries (`decoded`, possibly empty, e.g. for a non-object
top level) and reporting an error for the rest; or a well-formed snapshot of a
seen-set. -/
inductive FileContent
  | absent
  | unreadable
  | invalidJSON
  | mistyped (decoded : SeenSet)
  | snapshot (m : SeenSet)
deriving Repr, DecidableEq

/-- `loadState` from `src/main.go` lines 172-180: a read error returns the
pre-initialized empty map; the `json.Unmarshal` error is discarded, so
syntactically invalid JSON leaves the empty map, while valid JSON with
wrong-typed values leaves whatever entries were decoded before and after the
ignored error; a well-formed snapshot is returned as decoded. It never
fails. -/
def loadState : FileContent → SeenSet
  | .absent => []
  | .unreadable => []
  | .invalidJSON => []
  | .mistyped decoded => decoded
  | .snapshot m => m

/-- Stable insertion of an entry into a key-sorted association list. -/
def insertByKey (p : String × Bool) : SeenSet → SeenSet
  | [] => [p]
  | q :: rest => if p.1 ≤ q.1 then p :: q :: rest else q :: insertByKey p rest

/-- Stable insertion sort by key: `encoding/json` serializes Go maps with
their keys in sorted order. -/
def sortByKey : SeenSet → SeenSet
  | [] => []
  | p :: rest => insertByKey p (sortByKey rest)

/-- `saveState` from `src/main.go` lines 182-185: `json.MarshalIndent` writes
the map as a JSON object with sorted keys, overwriting `state.json`; with the
written file intact, the file now holds that snapshot. -/
def saveState (m : SeenSet) : FileContent := .snapshot (sortByKey m)

/-! ## The run controller (`main`, `src/main.go` lines 313-402) -/

/-- `MAX_POSTS_PER_RUN` from `src/main.go` line 134. -/
def MAX_POSTS_PER_RUN : Nat := 100

/-- The outcome of one `sendToTelegram` call as classified by the spec's
Delivery Client: the controller in `main.go` branches only on
`err == nil`, i.e. on `success` versus everything else; a Telegram 429
response is a non-nil error whose body carries `retry_after`. -/
inductive SendResult
  | success
  | rateLimited (retryAfter : Nat)
  | failed
deriving Repr, DecidableEq

/-- Observable side effects of the run, for the exit-path analysis: the
enrichment fetch for an item, the delivery attempt for an item, and a
`saveState` call with its argument. The loop body emits only the first two;
`save` is emitted solely by the deferred finalizer. -/
inductive Effect
  | enrich (i : Item)
  | attempt (i : Item)
  | save (s : SeenSet)
deriving Repr, DecidableEq

/-- The mutable state of `main`'s loop: the in-memory seen-set and `postsSent`,
plus ghost observers: the delivery attempts in order, the successful
deliveries in order, and the effect trace, each effect paired with the
in-memory seen-set right after it. -/
structure RunResult where
  state : SeenSet
  postsSent : Nat
  attempts : List Item
  delivered : List Item
  trace : List (Effect × SeenSet)
deriving Repr, DecidableEq

/-- The loop state at `src/main.go` line 337: seen-set as loaded, zero sent. -/
def RunResult.init (state0 : SeenSet) : RunResult :=
  ⟨state0, 0, [], [], []⟩

/-- The body of the inner loop, `src/main.go` lines 356-398, for one item:
stop if the cap is reached; skip if the identity is already seen; otherwise
fetch the article (enrichment; its outcome only shapes the message text),
attempt delivery, and on success mark the identity seen and count the post.
The send oracle receives the item and how many times this run has already
attempted it (always 0 in `main.go`, which never retries within a run). -/
def processItem (send : Item → Nat → SendResult) (maxPosts : Nat)
    (r : RunResult) (i : Item) : RunResult :=
  if maxPosts ≤ r.postsSent then r
  else
    let id := itemId i
    if r.state.get id then r
    else
      match send i (r.attempts.count i) with
      | .success =>
          { state := r.state.set id true
            postsSent := r.postsSent + 1
            attempts := r.attempts ++ [i]
            delivered := r.delivered ++ [i]
            trace := r.trace ++ [(.enrich i, r.state), (.attempt i, r.state.set id true)] }
      | _ =>
          { r with
            attempts := r.attempts ++ [i]
            trace := r.trace ++ [(.enrich i, r.state), (.attempt i, r.state)] }

/-- The inner loop over a feed's items, already put in processing order. -/
def processItems (send : Item → Nat → SendResult) (maxPosts : Nat)
    (r : RunResult) (items : List Item) : RunResult :=
  items.foldl (processItem send maxPosts) r

/-- One iteration of the outer loop, `src/main.go` lines 339-399: stop if the
cap is reached (checked before fetching); a failed fetch skips the feed; a
fetched feed's items are processed oldest-first, i.e. in reverse of the
feed-declared order (`for i := len-1; i >= 0; i--`). -/
def processFeed (send : Item → Nat → SendResult) (maxPosts : Nat)
    (r : RunResult) (feed : Option (List Item)) : RunResult :=
  if maxPosts ≤ r.postsSent then r
  else
    match feed with
    | none => r
    | some items => processItems send maxPosts r items.reverse

/-- The whole run loop of `main`, from `state := loadState()` to the end of
the feed loop: each fetched feed is an oracle value (`none` = fetch or parse
failure). -/
def runMain (send : Item → Nat → SendResult) (maxPosts : Nat)
    (feeds : List (Option (List Item))) (state0 : SeenSet) : RunResult :=
  feeds.foldl (processFeed send maxPosts) (.init state0)

/-- The items the run iterates over, in processing order. -/
def feedItems : Option (List Item) → List Item
  | none => []
  | some items => items.reverse

/-- Whether an effect is a `saveState` call. -/
def isSave : Effect → Bool
  | .save _ => true
  | _ => false

/-- The in-memory seen-set after the first `k` effects of a trace (the seen-set
paired with the last executed effect, or the loaded set when none ran yet). -/
def stateAt (s0 : SeenSet) (tr : List (Effect × SeenSet)) (k : Nat) : SeenSet :=
  (((tr.take k).getLast?).map Prod.snd).getD s0

/-- The deferred `saveState(state)` of `src/main.go` line 335: the run either
completes (`abortAfter = none`) or is cut off after `k` effects (early abort or
panic-equivalent, `abortAfter = some k`); on every such exit path Go runs the
deferred call once, saving the in-memory seen-set as it stands at that point. -/
def deferredExec (r : RunResult) (s0 : SeenSet) : Option Nat → List Effect
  | none => r.trace.map Prod.fst ++ [.save r.state]
  | some k => (r.trace.take k).map Prod.fst ++ [.save (stateAt s0 r.trace k)]

/-- The process environment read at `src/main.go` lines 314-317. -/
structure Config where
  token : String
  chatID : String
  aiApiToken : String
  aiModel : String
deriving Repr, DecidableEq

/-- `main` from `src/main.go` lines 313-402 as an effect trace: missing
credentials abort before `loadState` (no load, no save); otherwise the state is
loaded, the deferred save is registered, and the run executes to its exit
point. -/
def mainGo (cfg : Config) (send : Item → Nat → SendResult)
    (feeds : List (Option (List Item))) (fc : FileContent)
    (abortAfter : Option Nat) : List Effect :=
  if cfg.token = "" ∨ cfg.chatID = "" then []
  else if cfg.aiApiToken = "" ∨ cfg.aiModel = "" then []
  else
    deferredExec (runMain send MAX_POSTS_PER_RUN feeds (loadState fc))
      (loadState fc) abortAfter

/-- The seen-set that `main`'s deferred save writes on the given exit path. -/
def exitSeen (send : Item → Nat → SendResult) (maxPosts : Nat)
    (feeds : List (Option (List Item))) (s0 : SeenSet) : Option Nat → SeenSet
  | none => (runMain send maxPosts feeds s0).state
  | some k => stateAt s0 (runMain send maxPosts feeds s0).trace k

/-! ## The `part_001` variant's rate-limit retry loop

`src/unnamed/part_001` lines 110-127: an unbounded `for` loop that, per item,
re-sends the same message after a fixed 35-second sleep whenever the error body
contains `retry_after`, stops with the item marked seen on success, and stops
without marking on any other failure. Modelled with fuel (the Go loop may not
terminate); the oracle maps the retry attempt number to that attempt's
outcome. -/

/-- Outcome of the `part_001` per-item retry loop: delivered (marked seen)
after sleeping `slept` units in total, skipped unmarked after `slept` units,
or still looping when the fuel runs out. -/
inductive RetryOutcome
  | delivered (slept : Nat)
  | skipped (slept : Nat)
  | exhausted
deriving Repr, DecidableEq

/-- The `part_001` retry loop: attempt `n`, with `slept` units slept so far. -/
def retryLoop (send : Nat → SendResult) : Nat → Nat → Nat → RetryOutcome
  | 0, _, _ => .exhausted
  | fuel + 1, n, slept =>
      match send n with
      | .success => .delivered slept
      | .rateLimited _ => retryLoop send fuel (n + 1) (slept + 35)
      | .failed => .skipped slept

/-! ## Basic lemmas about the seen-set -/

theorem SeenSet.get_set_self (s : SeenSet) (k : String) (v : Bool) :
    (s.set k v).get k = v := by
  induction s with
  | nil => simp [SeenSet.set, SeenSet.get]
  | cons p rest ih =>
      obtain ⟨k', v'⟩ := p
      by_cases h : k' = k
      · subst h
        simp [SeenSet.set, SeenSet.get]
      · simp [SeenSet.set, SeenSet.get, h, ih]

theorem SeenSet.get_set_ne (s : SeenSet) {k k' : String} (h : k ≠ k') (v : Bool) :
    (s.set k v).get k' = s.get k' := by
  induction s with
  | nil => simp [SeenSet.set, SeenSet.get, h]
  | cons p rest ih =>
      obtain ⟨k₁, v₁⟩ := p
      by_cases h₁ : k₁ = k
      · subst h₁
        simp [SeenSet.set, SeenSet.get, h]
      · by_cases h₂ : k₁ = k'
        · subst h₂
          simp [SeenSet.set, SeenSet.get, h₁, ih]
        · simp [SeenSet.set, SeenSet.get, h₁, h₂, ih]

theorem SeenSet.get_set_mono (s : SeenSet) (k' k : String) (h : s.get k = true) :
    (s.set k' true).get k = true := by
  by_cases hk : k' = k
  · subst hk
    exact s.get_set_self k' true
  · rw [s.get_set_ne hk]
    exact h

/-! ## Case lemmas for one step of the inner loop -/

theorem processItem_capped (send : Item → Nat → SendResult) (N : Nat)
    (r : RunResult) (i : Item) (h : N ≤ r.postsSent) :
    processItem send N r i = r := by
  simp [processItem, h]

theorem processItem_seen (send : Item → Nat → SendResult) (N : Nat)
    (r : RunResult) (i : Item) (h : r.state.get (itemId i) = true) :
    processItem send N r i = r := by
  unfold processItem
  split
  · rfl
  · simp [h]

theorem processItem_success (send : Item → Nat → SendResult) (N : Nat)
    (r : RunResult) (i : Item) (hcap : r.postsSent < N)
    (hunseen : r.state.get (itemId i) = false)
    (hsend : send i (r.attempts.count i) = .success) :
    processItem send N r i =
      { state := r.state.set (itemId i) true
        postsSent := r.postsSent + 1
        attempts := r.attempts ++ [i]
        delivered := r.delivered ++ [i]
        trace := r.trace ++ [(.enrich i, r.state), (.attempt i, r.state.set (itemId i) true)] } := by
  have h1 : ¬ N ≤ r.postsSent := by omega
  simp [processItem, h1, hunseen, hsend]

theorem processItem_notSuccess (send : Item → Nat → SendResult) (N : Nat)
    (r : RunResult) (i : Item) (hcap : r.postsSent < N)
    (hunseen : r.state.get (itemId i) = false)
    (hsend : send i (r.attempts.count i) ≠ .success) :
    processItem send N r i =
      { r with
        attempts := r.attempts ++ [i]
        trace := r.trace ++ [(.enrich i, r.state), (.attempt i, r.state)] } := by
  have h1 : ¬ N ≤ r.postsSent := by omega
  rcases hs : send i (r.attempts.count i) with _ | k | _
  · exact absurd hs hsend
  · simp [processItem, h1, hunseen, hs]
  · simp [processItem, h1, hunseen, hs]

/-! ## Monotonicity of `postsSent` and of the seen-set along the run -/

theorem processItem_postsSent_le (send : Item → Nat → SendResult) (N : Nat)
    (r : RunResult) (i : Item) :
    r.postsSent ≤ (processItem send N r i).postsSent := by
  by_cases hcap : N ≤ r.postsSent
  · rw [processItem_capped send N r i hcap]
  · by_cases hseen : r.state.get (itemId i) = true
    · rw [processItem_seen send N r i hseen]
    · rw [Bool.not_eq_true] at hseen
      by_cases hsend : send i (r.attempts.count i) = .success
      · rw [processItem_success send N r i (by omega) hseen hsend]
        exact Nat.le_succ _
      · rw [processItem_notSuccess send N r i (by omega) hseen hsend]

theorem processItem_get_mono (send : Item → Nat → SendResult) (N : Nat)
    (r : RunResult) (i : Item) (k : String) (h : r.state.get k = true) :
    (processItem send N r i).state.get k = true := by
  by_cases hcap : N ≤ r.postsSent
  · rw [processItem_capped send N r i hcap]
    exact h
  · by_cases hseen : r.state.get (itemId i) = true
    · rw [processItem_seen send N r i hseen]
      exact h
    · rw [Bool.not_eq_true] at hseen
      by_cases hsend : send i (r.attempts.count i) = .success
      · rw [processItem_success send N r i (by omega) hseen hsend]
        exact SeenSet.get_set_mono _ _ _ h
      · rw [processItem_notSuccess send N r i (by omega) hseen hsend]
        exact h

theorem processItems_postsSent_le (send : Item → Nat → SendResult) (N : Nat)
    (r : RunResult) (l : List Item) :
    r.postsSent ≤ (processItems send N r l).postsSent := by
  induction l generalizing r with
  | nil => exact le_refl _
  | cons a rest ih =>
      calc r.postsSent ≤ (processItem send N r a).postsSent :=
            processItem_postsSent_le send N r a
        _ ≤ (processItems send N (processItem send N r a) rest).postsSent := ih _

theorem processItems_get_mono (send : Item → Nat → SendResult) (N : Nat)
    (r : RunResult) (l : List Item) (k : String) (h : r.state.get k = true) :
    (processItems send N r l).state.get k = true := by
  induction l generalizing r with
  | nil => exact h
  | cons a rest ih => exact ih _ (processItem_get_mono send N r a k h)

theorem processFeed_postsSent_le (send : Item → Nat → SendResult) (N : Nat)
    (r : RunResult) (f : Option (List Item)) :
    r.postsSent ≤ (processFeed send N r f).postsSent := by
  unfold processFeed
  split
  · exact le_refl _
  · split
    · exact le_refl _
    · exact processItems_postsSent_le send N r _

theorem processFeed_get_mono (send : Item → Nat → SendResult) (N : Nat)
    (r : RunResult) (f : Option (List Item)) (k : String)
    (h : r.state.get k = true) :
    (processFeed send N r f).state.get k = true := by
  unfold processFeed
  split
  · exact h
  · split
    · exact h
    · exact processItems_get_mono send N r _ k h

theorem foldFeeds_postsSent_le (send : Item → Nat → SendResult) (N : Nat)
    (r : RunResult) (feeds : List (Option (List Item))) :
    r.postsSent ≤ (feeds.foldl (processFeed send N) r).postsSent := by
  induction feeds generalizing r with
  | nil => exact le_refl _
  | cons f rest ih =>
      calc r.postsSent ≤ (processFeed send N r f).postsSent :=
            processFeed_postsSent_le send N r f
        _ ≤ _ := ih _

theorem foldFeeds_get_mono (send : Item → Nat → SendResult) (N : Nat)
    (r : RunResult) (feeds : List (Option (List Item))) (k : String)
    (h : r.state.get k = true) :
    ((feeds.foldl (processFeed send N) r).state).get k = true := by
  induction feeds generalizing r with
  | nil => exact h
  | cons f rest ih => exact ih _ (processFeed_get_mono send N r f k h)

/-! ## The effect trace: the loop body never saves, and the last recorded
seen-set is the in-memory one -/

/-- Invariant of the loop state relative to the loaded set `s0`: the trace
contains no `save` effect (the loop body never calls `saveState`), and the
seen-set paired with the last effect — the set `stateAt` reads back for the
final abort point — is the current in-memory seen-set. -/
def TraceInv (s0 : SeenSet) (r : RunResult) : Prop :=
  (∀ p ∈ r.trace, isSave p.1 = false) ∧
    ((r.trace.getLast?.map Prod.snd).getD s0 = r.state)

theorem getLast?_append_pair {α : Type} (l : List α) (a b : α) :
    (l ++ [a, b]).getLast? = some b := by
  rw [show l ++ [a, b] = (l ++ [a]) ++ [b] by simp]
  exact List.getLast?_concat _

theorem traceInv_init (s0 : SeenSet) : TraceInv s0 (.init s0) := by
  constructor
  · intro p hp
    simp [RunResult.init] at hp
  · simp [RunResult.init]

theorem processItem_traceInv (send : Item → Nat → SendResult) (N : Nat)
    (r : RunResult) (i : Item) (s0 : SeenSet) (h : TraceInv s0 r) :
    TraceInv s0 (processItem send N r i) := by
  obtain ⟨hns, hlast⟩ := h
  by_cases hcap : N ≤ r.postsSent
  · rw [processItem_capped send N r i hcap]
    exact ⟨hns, hlast⟩
  · by_cases hseen : r.state.get (itemId i) = true
    · rw [processItem_seen send N r i hseen]
      exact ⟨hns, hlast⟩
    · rw [Bool.not_eq_true] at hseen
      by_cases hsend : send i (r.attempts.count i) = .success
      · rw [processItem_success send N r i (by omega) hseen hsend]
        refine ⟨?_, ?_⟩
        · intro p hp
          rcases List.mem_append.mp hp with h1 | h2
          · exact hns p h1
          · simp only [List.mem_cons, List.not_mem_nil, or_false] at h2
            rcases h2 with h2 | h2
            · rw [h2]; rfl
            · rw [h2]; rfl
        · simp [getLast?_append_pair]
      · rw [processItem_notSuccess send N r i (by omega) hseen hsend]
        refine ⟨?_, ?_⟩
        · intro p hp
          rcases List.mem_append.mp hp with h1 | h2
          · exact hns p h1
          · simp only [List.mem_cons, List.not_mem_nil, or_false] at h2
            rcases h2 with h2 | h2
            · rw [h2]; rfl
            · rw [h2]; rfl
        · simp [getLast?_append_pair]

theorem processItems_traceInv (send : Item → Nat → SendResult) (N : Nat)
    (r : RunResult) (l : List Item) (s0 : SeenSet) (h : TraceInv s0 r) :
    TraceInv s0 (processItems send N r l) := by
  induction l generalizing r with
  | nil => exact h
  | cons a rest ih => exact ih _ (processItem_traceInv send N r a s0 h)

theorem processFeed_traceInv (send : Item → Nat → SendResult) (N : Nat)
    (r : RunResult) (f : Option (List Item)) (s0 : SeenSet) (h : TraceInv s0 r) :
    TraceInv s0 (processFeed send N r f) := by
  unfold processFeed
  split
  · exact h
  · split
    · exact h
    · exact processItems_traceInv send N r _ s0 h

theorem runMain_traceInv (send : Item → Nat → SendResult) (N : Nat)
    (feeds : List (Option (List Item))) (s0 : SeenSet) :
    TraceInv s0 (runMain send N feeds s0) := by
  unfold runMain
  have : ∀ (fs : List (Option (List Item))) (r : RunResult), TraceInv s0 r →
      TraceInv s0 (fs.foldl (processFeed send N) r) := by
    intro fs
    induction fs with
    | nil => intro r h; exact h
    | cons f rest ih =>
        intro r h
        exact ih _ (processFeed_traceInv send N r f s0 h)
  exact this feeds _ (traceInv_init s0)

/-! ## The delivery invariant: the seen-set is exactly the loaded set plus the
identities delivered so far -/

/-- Invariant of the loop state relative to the loaded set `s0`: an identity is
seen iff it was loaded as seen or belongs to an item delivered this run;
`postsSent` counts the deliveries; and no identity is delivered twice. -/
def Inv (s0 : SeenSet) (r : RunResult) : Prop :=
  (∀ k, r.state.get k = true ↔ s0.get k = true ∨ k ∈ r.delivered.map itemId)
    ∧ r.postsSent = r.delivered.length
    ∧ (r.delivered.map itemId).Nodup

theorem inv_init (s0 : SeenSet) : Inv s0 (.init s0) := by
  refine ⟨?_, rfl, ?_⟩
  · intro k
    simp [RunResult.init]
  · simp [RunResult.init]

theorem processItem_inv (send : Item → Nat → SendResult) (N : Nat)
    (r : RunResult) (i : Item) (s0 : SeenSet) (h : Inv s0 r) :
    Inv s0 (processItem send N r i) := by
  obtain ⟨hiff, hcount, hnd⟩ := h
  by_cases hcap : N ≤ r.postsSent
  · rw [processItem_capped send N r i hcap]
    exact ⟨hiff, hcount, hnd⟩
  · by_cases hseen : r.state.get (itemId i) = true
    · rw [processItem_seen send N r i hseen]
      exact ⟨hiff, hcount, hnd⟩
    · rw [Bool.not_eq_true] at hseen
      by_cases hsend : send i (r.attempts.count i) = .success
      · rw [processItem_success send N r i (by omega) hseen hsend]
        have hnotmem : itemId i ∉ r.delivered.map itemId := by
          intro hmem
          have := (hiff (itemId i)).mpr (Or.inr hmem)
          rw [hseen] at this
          exact Bool.false_ne_true this
        refine ⟨?_, ?_, ?_⟩
        · intro k
          by_cases hk : itemId i = k
          · subst hk
            simp [SeenSet.get_set_self]
          · rw [SeenSet.get_set_ne _ hk]
            simp only [List.map_append, List.map_cons, List.map_nil, List.mem_append,
              List.mem_cons, List.not_mem_nil, or_false]
            constructor
            · intro hget
              rcases (hiff k).mp hget with h1 | h1
              · exact Or.inl h1
              · exact Or.inr (Or.inl h1)
            · intro hor
              rcases hor with h1 | h1 | h1
              · exact (hiff k).mpr (Or.inl h1)
              · exact (hiff k).mpr (Or.inr h1)
              · exact absurd h1.symm hk
        · simp [hcount]
        · simp only [List.map_append, List.map_cons, List.map_nil]
          rw [List.nodup_append]
          refine ⟨hnd, List.nodup_singleton _, ?_⟩
          intro a ha hb
          simp only [List.mem_singleton] at hb
          subst hb
          exact hnotmem ha
      · rw [processItem_notSuccess send N r i (by omega) hseen hsend]
        exact ⟨hiff, hcount, hnd⟩

theorem processItems_inv (send : Item → Nat → SendResult) (N : Nat)
    (r : RunResult) (l : List Item) (s0 : SeenSet) (h : Inv s0 r) :
    Inv s0 (processItems send N r l) := by
  induction l generalizing r with
  | nil => exact h
  | cons a rest ih => exact ih _ (processItem_inv send N r a s0 h)

theorem processFeed_inv (send : Item → Nat → SendResult) (N : Nat)
    (r : RunResult) (f : Option (List Item)) (s0 : SeenSet) (h : Inv s0 r) :
    Inv s0 (processFeed send N r f) := by
  unfold processFeed
  split
  · exact h
  · split
    · exact h
    · exact processItems_inv send N r _ s0 h

theorem runMain_inv (send : Item → Nat → SendResult) (N : Nat)
    (feeds : List (Option (List Item))) (s0 : SeenSet) :
    Inv s0 (runMain send N feeds s0) := by
  unfold runMain
  have : ∀ (fs : List (Option (List Item))) (r : RunResult), Inv s0 r →
      Inv s0 (fs.foldl (processFeed send N) r) := by
    intro fs
    induction fs with
    | nil => intro r h; exact h
    | cons f rest ih =>
        intro r h
        exact ih _ (processFeed_inv send N r f s0 h)
  exact this feeds _ (inv_init s0)

/-! ## Case lemmas for one step of the outer loop -/

theorem processFeed_capped (send : Item → Nat → SendResult) (N : Nat)
    (r : RunResult) (f : Option (List Item)) (h : N ≤ r.postsSent) :
    processFeed send N r f = r := by
  simp [processFeed, h]

theorem processFeed_none (send : Item → Nat → SendResult) (N : Nat)
    (r : RunResult) : processFeed send N r none = r := by
  unfold processFeed
  split
  · rfl
  · rfl

theorem processFeed_some (send : Item → Nat → SendResult) (N : Nat)
    (r : RunResult) (items : List Item) (h : ¬ N ≤ r.postsSent) :
    processFeed send N r (some items) = processItems send N r items.reverse := by
  simp [processFeed, h]

/-! ## Cap upper bound, clean-run saturation, and no-op on an all-seen run -/

theorem processItem_postsSent_bound (send : Item → Nat → SendResult) (N : Nat)
    (r : RunResult) (i : Item) (h : r.postsSent ≤ N) :
    (processItem send N r i).postsSent ≤ N := by
  by_cases hcap : N ≤ r.postsSent
  · rw [processItem_capped send N r i hcap]
    exact h
  · by_cases hseen : r.state.get (itemId i) = true
    · rw [processItem_seen send N r i hseen]
      exact h
    · rw [Bool.not_eq_true] at hseen
      by_cases hsend : send i (r.attempts.count i) = .success
      · rw [processItem_success send N r i (by omega) hseen hsend]
        simp only []
        omega
      · rw [processItem_notSuccess send N r i (by omega) hseen hsend]
        exact h

theorem processItems_postsSent_bound (send : Item → Nat → SendResult) (N : Nat)
    (r : RunResult) (l : List Item) (h : r.postsSent ≤ N) :
    (processItems send N r l).postsSent ≤ N := by
  induction l generalizing r with
  | nil => exact h
  | cons a rest ih => exact ih _ (processItem_postsSent_bound send N r a h)

theorem processFeed_postsSent_bound (send : Item → Nat → SendResult) (N : Nat)
    (r : RunResult) (f : Option (List Item)) (h : r.postsSent ≤ N) :
    (processFeed send N r f).postsSent ≤ N := by
  unfold processFeed
  split
  · exact h
  · split
    · exact h
    · exact processItems_postsSent_bound send N r _ h

theorem runMain_postsSent_bound (send : Item → Nat → SendResult) (N : Nat)
    (feeds : List (Option (List Item))) (s0 : SeenSet) :
    (runMain send N feeds s0).postsSent ≤ N := by
  unfold runMain
  have : ∀ (fs : List (Option (List Item))) (r : RunResult), r.postsSent ≤ N →
      (fs.foldl (processFeed send N) r).postsSent ≤ N := by
    intro fs
    induction fs with
    | nil => intro r h; exact h
    | cons f rest ih =>
        intro r h
        exact ih _ (processFeed_postsSent_bound send N r f h)
  exact this feeds _ (Nat.zero_le N)

/-- If every send succeeds and the inner loop ends below the cap, then every
item of the processed list ends up marked seen. -/
theorem processItems_all_seen (send : Item → Nat → SendResult) (N : Nat)
    (hsucc : ∀ i n, send i n = .success) (l : List Item) (r : RunResult)
    (hfin : (processItems send N r l).postsSent < N) :
    ∀ i ∈ l, (processItems send N r l).state.get (itemId i) = true := by
  induction l generalizing r with
  | nil => intro i hi; simp at hi
  | cons a rest ih =>
      intro i hi
      have hstep : processItems send N r (a :: rest) =
          processItems send N (processItem send N r a) rest := rfl
      rw [hstep] at hfin ⊢
      rcases List.mem_cons.mp hi with hi | hi
      · subst hi
        have hmid : (processItem send N r i).postsSent < N :=
          lt_of_le_of_lt (processItems_postsSent_le send N _ rest) hfin
        have hstepseen : (processItem send N r i).state.get (itemId i) = true := by
          by_cases hcap : N ≤ r.postsSent
          · exfalso
            rw [processItem_capped send N r i hcap] at hmid
            omega
          · by_cases hseen : r.state.get (itemId i) = true
            · rw [processItem_seen send N r i hseen]
              exact hseen
            · rw [Bool.not_eq_true] at hseen
              rw [processItem_success send N r i (by omega) hseen (hsucc i _)]
              exact SeenSet.get_set_self _ _ _
        exact processItems_get_mono send N _ rest _ hstepseen
      · exact ih _ hfin i hi

/-- If every send succeeds and the whole run ends below the cap, then every
item the run iterates over ends up marked seen in the final seen-set. -/
theorem runMain_all_seen (send : Item → Nat → SendResult) (N : Nat)
    (hsucc : ∀ i n, send i n = .success) (feeds : List (Option (List Item)))
    (s0 : SeenSet) (hfin : (runMain send N feeds s0).postsSent < N) :
    ∀ f ∈ feeds, ∀ i ∈ feedItems f,
      (runMain send N feeds s0).state.get (itemId i) = true := by
  unfold runMain at hfin ⊢
  have main : ∀ (fs : List (Option (List Item))) (r : RunResult),
      (fs.foldl (processFeed send N) r).postsSent < N →
      ∀ f ∈ fs, ∀ i ∈ feedItems f,
        ((fs.foldl (processFeed send N) r).state).get (itemId i) = true := by
    intro fs
    induction fs with
    | nil => intro r _ f hf; simp at hf
    | cons g rest ih =>
        intro r hfin f hf i hi
        have hstep : (g :: rest).foldl (processFeed send N) r =
            rest.foldl (processFeed send N) (processFeed send N r g) := rfl
        rw [hstep] at hfin ⊢
        rcases List.mem_cons.mp hf with hf | hf
        · subst hf
          have hmid : (processFeed send N r f).postsSent < N :=
            lt_of_le_of_lt (foldFeeds_postsSent_le send N _ rest) hfin
          have hcap : ¬ N ≤ r.postsSent := by
            intro hcap
            rw [processFeed_capped send N r f hcap] at hmid
            omega
          have hfeedseen : (processFeed send N r f).state.get (itemId i) = true := by
            cases f with
            | none => simp [feedItems] at hi
            | some items =>
                have hpf : processFeed send N r (some items) =
                    processItems send N r items.reverse :=
                  processFeed_some send N r items hcap
                rw [hpf] at hmid ⊢
                exact processItems_all_seen send N hsucc items.reverse r hmid i hi
          exact foldFeeds_get_mono send N _ rest _ hfeedseen
        · exact ih _ hfin f hf i hi
  exact main feeds _ hfin

/-- The inner loop does nothing on a list whose items are all already seen. -/
theorem processItems_all_seen_noop (send : Item → Nat → SendResult) (N : Nat)
    (r : RunResult) (l : List Item)
    (h : ∀ i ∈ l, r.state.get (itemId i) = true) :
    processItems send N r l = r := by
  induction l with
  | nil => rfl
  | cons a rest ih =>
      have hstep : processItem send N r a = r := by
        by_cases hcap : N ≤ r.postsSent
        · exact processItem_capped send N r a hcap
        · exact processItem_seen send N r a (h a (List.mem_cons_self a rest))
      show processItems send N (processItem send N r a) rest = r
      rw [hstep]
      exact ih (fun i hi => h i (List.mem_cons_of_mem a hi))

/-- The whole run does nothing when every item of every feed is already seen:
the loop state stays at its initial value. -/
theorem runMain_all_seen_noop (send : Item → Nat → SendResult) (N : Nat)
    (feeds : List (Option (List Item))) (s0 : SeenSet)
    (h : ∀ f ∈ feeds, ∀ i ∈ feedItems f, s0.get (itemId i) = true) :
    runMain send N feeds s0 = .init s0 := by
  unfold runMain
  have main : ∀ (fs : List (Option (List Item))) (r : RunResult), r.state = s0 →
      (∀ f ∈ fs, ∀ i ∈ feedItems f, s0.get (itemId i) = true) →
      fs.foldl (processFeed send N) r = r := by
    intro fs
    induction fs with
    | nil => intro r _ _; rfl
    | cons g rest ih =>
        intro r hr h
        have hstep : processFeed send N r g = r := by
          by_cases hcap : N ≤ r.postsSent
          · exact processFeed_capped send N r g hcap
          · cases g with
            | none => exact processFeed_none send N r
            | some items =>
                rw [processFeed_some send N r items hcap]
                exact processItems_all_seen_noop send N r items.reverse
                  (fun i hi => by
                    rw [hr]
                    exact h (some items) (List.mem_cons_self _ rest) i hi)
        show rest.foldl (processFeed send N) (processFeed send N r g) = r
        rw [hstep]
        exact ih r hr (fun f hf => h f (List.mem_cons_of_mem g hf))
  exact main feeds _ rfl h

/-- Under an all-success oracle the attempted and delivered lists coincide. -/
theorem runMain_attempts_eq_delivered (send : Item → Nat → SendResult) (N : Nat)
    (hsucc : ∀ i n, send i n = .success) (feeds : List (Option (List Item)))
    (s0 : SeenSet) :
    (runMain send N feeds s0).attempts = (runMain send N feeds s0).delivered := by
  unfold runMain
  have hitem : ∀ (r : RunResult) (i : Item), r.attempts = r.delivered →
      (processItem send N r i).attempts = (processItem send N r i).delivered := by
    intro r i h
    by_cases hcap : N ≤ r.postsSent
    · rw [processItem_capped send N r i hcap]
      exact h
    · by_cases hseen : r.state.get (itemId i) = true
      · rw [processItem_seen send N r i hseen]
        exact h
      · rw [Bool.not_eq_true] at hseen
        rw [processItem_success send N r i (by omega) hseen (hsucc i _)]
        simp [h]
  have hitems : ∀ (l : List Item) (r : RunResult), r.attempts = r.delivered →
      (processItems send N r l).attempts = (processItems send N r l).delivered := by
    intro l
    induction l with
    | nil => intro r h; exact h
    | cons a rest ih => intro r h; exact ih _ (hitem r a h)
  have hfeed : ∀ (f : Option (List Item)) (r : RunResult), r.attempts = r.delivered →
      (processFeed send N r f).attempts = (processFeed send N r f).delivered := by
    intro f r h
    unfold processFeed
    split
    · exact h
    · split
      · exact h
      · exact hitems _ r h
  have main : ∀ (fs : List (Option (List Item))) (r : RunResult),
      r.attempts = r.delivered →
      (fs.foldl (processFeed send N) r).attempts =
        (fs.foldl (processFeed send N) r).delivered := by
    intro fs
    induction fs with
    | nil => intro r h; exact h
    | cons f rest ih => intro r h; exact ih _ (hfeed f r h)
  exact main feeds _ rfl

/-! ## Attempt order on a list of fresh, distinct items -/

/-- On a list of pairwise-distinct, initially unseen items that fits under the
cap, the inner loop attempts exactly those items, in list order, regardless of
the send outcomes. -/
theorem processItems_attempts_ordered (send : Item → Nat → SendResult) (N : Nat)
    (l : List Item) (r : RunResult)
    (hunseen : ∀ i ∈ l, r.state.get (itemId i) = false)
    (hnd : (l.map itemId).Nodup)
    (hcap : r.postsSent + l.length ≤ N) :
    (processItems send N r l).attempts = r.attempts ++ l := by
  induction l generalizing r with
  | nil => simp [processItems]
  | cons a rest ih =>
      have hcapa : ¬ N ≤ r.postsSent := by
        simp only [List.length_cons] at hcap
        omega
      have hseena : r.state.get (itemId a) = false :=
        hunseen a (List.mem_cons_self a rest)
      have hnotin : itemId a ∉ rest.map itemId := by
        simp only [List.map_cons, List.nodup_cons] at hnd
        exact hnd.1
      have hndrest : (rest.map itemId).Nodup := by
        simp only [List.map_cons, List.nodup_cons] at hnd
        exact hnd.2
      have hstep : processItems send N r (a :: rest) =
          processItems send N (processItem send N r a) rest := rfl
      rw [hstep]
      by_cases hsend : send a (r.attempts.count a) = .success
      · rw [processItem_success send N r a (by omega) hseena hsend]
        rw [ih _ ?_ hndrest ?_]
        · simp
        · intro i hi
          have hne : itemId i ≠ itemId a := by
            intro he
            exact hnotin (he ▸ List.mem_map_of_mem itemId hi)
          simp only []
          rw [SeenSet.get_set_ne _ (fun he => hne he.symm)]
          exact hunseen i (List.mem_cons_of_mem a hi)
        · simp only [List.length_cons] at hcap
          simp only []
          omega
      · rw [processItem_notSuccess send N r a (by omega) hseena hsend]
        rw [ih _ ?_ hndrest ?_]
        · simp
        · intro i hi
          exact hunseen i (List.mem_cons_of_mem a hi)
        · simp only [List.length_cons] at hcap
          simp only []
          omega

/-! ## Saturation: with enough fresh identities and successful sends, the run
delivers exactly the cap -/

/-- The distinct identities among the run's iterated items that the loaded
seen-set does not already mark seen. -/
def newIds (feeds : List (Option (List Item))) (s0 : SeenSet) : List String :=
  (((feeds.flatMap feedItems).map itemId).filter (fun k => !s0.get k)).dedup

/-- Under an all-success oracle, a run facing at least `N` fresh distinct
identities delivers exactly `N` posts. -/
theorem runMain_postsSent_saturated (send : Item → Nat → SendResult) (N : Nat)
    (hsucc : ∀ i n, send i n = .success) (feeds : List (Option (List Item)))
    (s0 : SeenSet) (hmany : N ≤ (newIds feeds s0).length) :
    (runMain send N feeds s0).postsSent = N := by
  have hub := runMain_postsSent_bound send N feeds s0
  by_contra hne
  have hlt : (runMain send N feeds s0).postsSent < N := by omega
  have hall := runMain_all_seen send N hsucc feeds s0 hlt
  obtain ⟨hiff, hcount, _⟩ := runMain_inv send N feeds s0
  have hsub : newIds feeds s0 ⊆ (runMain send N feeds s0).delivered.map itemId := by
    intro k hk
    rw [newIds, List.mem_dedup, List.mem_filter] at hk
    obtain ⟨hkmem, hkfresh⟩ := hk
    obtain ⟨i, himem, hik⟩ := List.mem_map.mp hkmem
    obtain ⟨f, hf, hif⟩ := List.mem_flatMap.mp himem
    have hktrue : (runMain send N feeds s0).state.get k = true := by
      rw [← hik]
      exact hall f hf i hif
    rcases (hiff k).mp hktrue with h1 | h1
    · rw [h1] at hkfresh
      simp at hkfresh
    · exact h1
  have hndnew : (newIds feeds s0).Nodup := List.nodup_dedup _
  have hlen : (newIds feeds s0).length ≤
      ((runMain send N feeds s0).delivered.map itemId).length :=
    (hndnew.subperm hsub).length_le
  rw [List.length_map] at hlen
  omega

/-! ## Shape of the hex digest -/

/-- Whether a character is a lowercase hexadecimal digit. -/
def isHexChar (c : Char) : Bool :=
  (48 ≤ c.toNat && c.toNat ≤ 57) || (97 ≤ c.toNat && c.toNat ≤ 102)

theorem wordBytes_lt (w : Nat) : ∀ b ∈ wordBytes w, b < 256 := by
  intro b hb
  simp only [wordBytes, List.mem_cons, List.not_mem_nil, or_false] at hb
  rcases hb with h | h | h | h <;> subst h <;> exact Nat.mod_lt _ (by norm_num)

theorem sha256_bytes_lt (msg : List Nat) : ∀ b ∈ sha256 msg, b < 256 := by
  intro b hb
  simp only [sha256, digestBytes, List.mem_append] at hb
  rcases hb with ((((((h | h) | h) | h) | h) | h) | h) | h <;>
    exact wordBytes_lt _ b h

theorem sha256_length (msg : List Nat) : (sha256 msg).length = 32 := by
  simp [sha256, digestBytes, wordBytes]

theorem isHexChar_hexDigitChar {n : Nat} (h : n < 16) :
    isHexChar (hexDigitChar n) = true := by
  interval_cases n <;> decide

theorem length_flatMap_pairs {α : Type} (f g : Nat → α) (bs : List Nat) :
    (bs.flatMap (fun b => [f b, g b])).length = 2 * bs.length := by
  induction bs with
  | nil => rfl
  | cons b rest ih =>
      simp only [List.flatMap_cons, List.length_append, List.length_cons, ih,
        List.length_nil]
      omega

theorem hash_length (s : String) : (hash s).length = 64 := by
  show (String.mk _).length = 64
  have hlen : (String.mk ((sha256 (utf8Encode s)).flatMap
      (fun b => [hexDigitChar (b / 16), hexDigitChar (b % 16)]))).length =
      ((sha256 (utf8Encode s)).flatMap
      (fun b => [hexDigitChar (b / 16), hexDigitChar (b % 16)])).length := rfl
  rw [hlen, length_flatMap_pairs, sha256_length]

theorem hash_chars_hex (s : String) : ∀ c ∈ (hash s).data, isHexChar c = true := by
  intro c hc
  have hdata : (hash s).data = (sha256 (utf8Encode s)).flatMap
      (fun b => [hexDigitChar (b / 16), hexDigitChar (b % 16)]) := rfl
  rw [hdata] at hc
  obtain ⟨b, hb, hcb⟩ := List.mem_flatMap.mp hc
  have hblt : b < 256 := sha256_bytes_lt _ b hb
  simp only [List.mem_cons, List.not_mem_nil, or_false] at hcb
  rcases hcb with h | h <;> subst h
  · exact isHexChar_hexDigitChar (by omega)
  · exact isHexChar_hexDigitChar (Nat.mod_lt _ (by norm_num))

/-! ## The persisted snapshot: sorting by key preserves the mapping -/

theorem insertByKey_perm (p : String × Bool) (l : SeenSet) :
    (insertByKey p l).Perm (p :: l) := by
  induction l with
  | nil => exact List.Perm.refl _
  | cons q rest ih =>
      by_cases h : p.1 ≤ q.1
      · simp [insertByKey, h]
      · simp only [insertByKey, h, if_false]
        exact (ih.cons q).trans (List.Perm.swap p q rest)

theorem sortByKey_perm (l : SeenSet) : (sortByKey l).Perm l := by
  induction l with
  | nil => exact List.Perm.refl _
  | cons p rest ih =>
      exact (insertByKey_perm p (sortByKey rest)).trans (ih.cons p)

/-- Looking up a key in an association list with pairwise-distinct keys is
invariant under permutation of the entries. -/
theorem SeenSet.get_eq_of_perm {l l' : SeenSet} (hperm : l.Perm l')
    (hnd : (l.map Prod.fst).Nodup) (k : String) : l'.get k = l.get k := by
  induction hperm with
  | nil => rfl
  | cons p h ih =>
      obtain ⟨k', v'⟩ := p
      simp only [List.map_cons, List.nodup_cons] at hnd
      by_cases hk : k' = k
      · simp [SeenSet.get, hk]
      · simp [SeenSet.get, hk, ih hnd.2]
  | swap x y l =>
      obtain ⟨kx, vx⟩ := x
      obtain ⟨ky, vy⟩ := y
      simp only [List.map_cons, List.nodup_cons, List.mem_cons] at hnd
      have hne : ky ≠ kx := fun he => hnd.1 (Or.inl he)
      by_cases hx : kx = k
      · subst hx
        simp [SeenSet.get, hne]
      · by_cases hy : ky = k
        · subst hy
          simp [SeenSet.get, hx]
        · simp [SeenSet.get, hx, hy]
  | trans h12 h23 ih1 ih2 =>
      have hnd2 : (_ : SeenSet).map Prod.fst |>.Nodup :=
        ((h12.map Prod.fst).nodup_iff).mp hnd
      rw [ih2 hnd2, ih1 hnd]

/-! ## The `part_001` retry loop delivers after the rate-limit burst ends -/

theorem retryLoop_delivered (send : Nat → SendResult) :
    ∀ (m n slept fuel : Nat),
      (∀ j, j < m → ∃ ra, send (n + j) = .rateLimited ra) →
      send (n + m) = .success →
      m < fuel →
      retryLoop send fuel n slept = .delivered (slept + 35 * m) := by
  intro m
  induction m with
  | zero =>
      intro n slept fuel _ hs hf
      cases fuel with
      | zero => omega
      | succ f =>
          simp only [Nat.add_zero] at hs
          simp [retryLoop, hs]
  | succ m ih =>
      intro n slept fuel hrl hs hf
      cases fuel with
      | zero => omega
      | succ f =>
          obtain ⟨ra, hra⟩ := hrl 0 (Nat.succ_pos m)
          simp only [Nat.add_zero] at hra
          have hstep : retryLoop send (f + 1) n slept =
              retryLoop send f (n + 1) (slept + 35) := by
            simp [retryLoop, hra]
          rw [hstep]
          have hrl' : ∀ j, j < m → ∃ ra, send (n + 1 + j) = .rateLimited ra := by
            intro j hj
            have := hrl (j + 1) (by omega)
            rwa [show n + (j + 1) = n + 1 + j by omega] at this
          have hs' : send (n + 1 + m) = .success := by
            rwa [show n + (m + 1) = n + 1 + m by omega] at hs
          rw [ih (n + 1) (slept + 35) f hrl' hs' (by omega)]
          congr 1
          omega

/-! ## Concrete fixtures for witnesses and counterexamples -/

/-- A concrete feed item. -/
def cexItem : Item := ⟨"A", "https://example.com/a", ""⟩

/-- A send oracle that is rate-limited on the first attempt for an item and
would succeed on any retry. -/
def cexSend : Item → Nat → SendResult :=
  fun _ n => if n = 0 then .rateLimited 5 else .success

/-- A send oracle that always succeeds. -/
def sendAlwaysOk : Item → Nat → SendResult := fun _ _ => .success

/-! ## Claim theorems -/

/-- C1: an item whose identity (hash of its link) is already present in the
loaded seen-set is skipped before any enrichment or delivery attempt (the loop
state, including the effect trace, is completely unchanged); consequently a
second run over the unchanged feeds, starting from the seen-set left by a
first run whose delivery attempts all succeeded and which ended below the cap,
attempts and delivers zero items. -/
theorem c1_seen_skipped_second_run_idle (send1 send2 : Item → Nat → SendResult)
    (N : Nat) (feeds : List (Option (List Item))) (s0 : SeenSet)
    (hsucc : ∀ i n, send1 i n = .success)
    (hcap : (runMain send1 N feeds s0).postsSent < N) :
    (∀ (r : RunResult) (i : Item), r.state.get (itemId i) = true →
        processItem send2 N r i = r) ∧
      runMain send2 N feeds (runMain send1 N feeds s0).state =
        .init (runMain send1 N feeds s0).state ∧
      (runMain send2 N feeds (runMain send1 N feeds s0).state).attempts = [] ∧
      (runMain send2 N feeds (runMain send1 N feeds s0).state).delivered = [] ∧
      (runMain send2 N feeds (runMain send1 N feeds s0).state).postsSent = 0 := by
  have hnoop : runMain send2 N feeds (runMain send1 N feeds s0).state =
      .init (runMain send1 N feeds s0).state := by
    apply runMain_all_seen_noop
    intro f hf i hi
    exact runMain_all_seen send1 N hsucc feeds s0 hcap f hf i hi
  refine ⟨fun r i h => processItem_seen send2 N r i h, hnoop, ?_, ?_, ?_⟩ <;>
    rw [hnoop] <;> rfl

/-- C1 witness: a clean first run over one single-item feed marks everything
seen, and the second run over the same feed is the identity on the loop
state. -/
theorem c1_witness :
    runMain cexSend MAX_POSTS_PER_RUN [some [cexItem]]
        (runMain sendAlwaysOk MAX_POSTS_PER_RUN [some [cexItem]] []).state =
      .init (runMain sendAlwaysOk MAX_POSTS_PER_RUN [some [cexItem]] []).state :=
  (c1_seen_skipped_second_run_idle sendAlwaysOk cexSend MAX_POSTS_PER_RUN
    [some [cexItem]] [] (fun _ _ => rfl) (by decide)).2.1

/-- C2 counterexample: with one fresh item whose first delivery attempt is
rate-limited (`retryAfter = 5`) and whose second attempt would succeed, the
`main.go` controller performs exactly one attempt — it never retries the
message — and the item is never marked seen, contradicting the claim that a
rate-limited delivery is retried after the indicated wait and eventually
marked seen. -/
theorem c2_counterexample :
    (runMain cexSend MAX_POSTS_PER_RUN [some [cexItem]] []).attempts = [cexItem] ∧
      (runMain cexSend MAX_POSTS_PER_RUN [some [cexItem]] []).state.get
        (itemId cexItem) = false ∧
      (runMain cexSend MAX_POSTS_PER_RUN [some [cexItem]] []).delivered = [] := by
  refine ⟨rfl, rfl, rfl⟩

/-- C2 (amended): in `main.go` a rate-limited delivery outcome is handled like
any other failure: the item is attempted exactly once in the run, is not
marked seen, `postsSent` is not incremented and the seen-set is unchanged, so
the item remains eligible on the next run rather than being lost; the in-run
retry exists only in the `part_001` variant, whose loop re-sends the same
message after a fixed 35-unit sleep (meeting the `retryAfter` bound only when
`retryAfter ≤ 35`) and marks the item delivered on the first successful
retry, having slept 35 units per rate-limited attempt. -/
theorem c2_amended_rate_limit_not_retried :
    (∀ (send : Item → Nat → SendResult) (N : Nat) (s0 : SeenSet) (i : Item)
        (ra : Nat), send i 0 = .rateLimited ra → s0.get (itemId i) = false →
        1 ≤ N →
        (runMain send N [some [i]] s0).attempts = [i] ∧
          (runMain send N [some [i]] s0).delivered = [] ∧
          (runMain send N [some [i]] s0).postsSent = 0 ∧
          (runMain send N [some [i]] s0).state = s0) ∧
      (∀ (send : Nat → SendResult) (m fuel : Nat),
        (∀ j, j < m → ∃ ra, send j = .rateLimited ra) → send m = .success →
        m < fuel → retryLoop send fuel 0 0 = .delivered (35 * m)) := by
  constructor
  · intro send N s0 i ra hra hunseen hN
    have hcap : ¬ N ≤ (0 : Nat) := by omega
    have hrun : runMain send N [some [i]] s0 =
        processItem send N (.init s0) i := by
      show processFeed send N (.init s0) (some [i]) = _
      rw [processFeed_some send N _ [i] hcap]
      rfl
    have hcount : (RunResult.init s0).attempts.count i = 0 := rfl
    have hsend : send i ((RunResult.init s0).attempts.count i) ≠ .success := by
      rw [hcount, hra]
      intro h
      exact SendResult.noConfusion h
    rw [hrun, processItem_notSuccess send N _ i (by simp [RunResult.init]; omega)
      (by simpa [RunResult.init] using hunseen) hsend]
    refine ⟨rfl, rfl, rfl, rfl⟩
  · intro send m fuel hrl hs hf
    have := retryLoop_delivered send m 0 0 fuel (by simpa using hrl)
      (by simpa using hs) hf
    simpa using this

/-- C2 amended witness: a concrete run with a rate-limited first attempt, and
a concrete retry loop that succeeds on its third attempt after two
rate-limited ones. -/
theorem c2_amended_witness :
    (runMain cexSend MAX_POSTS_PER_RUN [some [cexItem]] []).attempts = [cexItem] ∧
      retryLoop (fun n => if n < 2 then .rateLimited 5 else .success) 10 0 0 =
        .delivered 70 :=
  ⟨(c2_amended_rate_limit_not_retried.1 cexSend MAX_POSTS_PER_RUN [] cexItem 5
      rfl rfl (by decide)).1,
    c2_amended_rate_limit_not_retried.2 _ 2 10
      (fun j hj => ⟨5, by simp [hj]⟩) (by simp) (by decide)⟩

theorem filter_isSave_map_eq_nil (tr : List (Effect × SeenSet))
    (h : ∀ p ∈ tr, isSave p.1 = false) :
    (tr.map Prod.fst).filter isSave = [] := by
  rw [List.filter_eq_nil_iff]
  intro a ha
  obtain ⟨p, hp, hpa⟩ := List.mem_map.mp ha
  rw [← hpa]
  simp [h p hp]

/-- C3: whenever the credentials check passes (so the seen-set is loaded and
the deferred `saveState` is registered), every exit path of the run — normal
completion (`abortAfter = none`) or a cut-off after any number of effects
(early abort or panic-equivalent, `abortAfter = some k`) — produces an effect
trace whose save events are exactly one final `saveState` of the in-memory
seen-set as it stands at that exit point: the loop body itself never saves. -/
theorem c3_save_exactly_once_each_exit (cfg : Config)
    (send : Item → Nat → SendResult) (feeds : List (Option (List Item)))
    (fc : FileContent) (ab : Option Nat)
    (h1 : cfg.token ≠ "") (h2 : cfg.chatID ≠ "") (h3 : cfg.aiApiToken ≠ "")
    (h4 : cfg.aiModel ≠ "") :
    (mainGo cfg send feeds fc ab).filter isSave =
        [.save (exitSeen send MAX_POSTS_PER_RUN feeds (loadState fc) ab)] ∧
      (mainGo cfg send feeds fc ab).getLast? =
        some (.save (exitSeen send MAX_POSTS_PER_RUN feeds (loadState fc) ab)) := by
  have hmg : mainGo cfg send feeds fc ab =
      deferredExec (runMain send MAX_POSTS_PER_RUN feeds (loadState fc))
        (loadState fc) ab := by
    simp [mainGo, h1, h2, h3, h4]
  obtain ⟨hns, _⟩ := runMain_traceInv send MAX_POSTS_PER_RUN feeds (loadState fc)
  rw [hmg]
  cases ab with
  | none =>
      constructor
      · rw [deferredExec, List.filter_append,
          filter_isSave_map_eq_nil _ hns]
        simp [isSave, exitSeen]
      · rw [deferredExec, List.getLast?_concat]
        rfl
  | some k =>
      have hnstake : ∀ p ∈ (runMain send MAX_POSTS_PER_RUN feeds
          (loadState fc)).trace.take k, isSave p.1 = false :=
        fun p hp => hns p (List.take_subset k _ hp)
      constructor
      · rw [deferredExec, List.filter_append,
          filter_isSave_map_eq_nil _ hnstake]
        simp [isSave, exitSeen]
      · rw [deferredExec, List.getLast?_concat]
        rfl

/-- C3 witness: a concrete valid configuration, run to completion. -/
theorem c3_witness :
    (mainGo ⟨"t", "c", "k", "m"⟩ sendAlwaysOk [] .absent none).filter isSave =
        [.save (exitSeen sendAlwaysOk MAX_POSTS_PER_RUN [] (loadState .absent)
          none)] ∧
      (mainGo ⟨"t", "c", "k", "m"⟩ sendAlwaysOk [] .absent none).getLast? =
        some (.save (exitSeen sendAlwaysOk MAX_POSTS_PER_RUN [] (loadState .absent)
          none)) :=
  c3_save_exactly_once_each_exit ⟨"t", "c", "k", "m"⟩ sendAlwaysOk [] .absent
    none (by decide) (by decide) (by decide) (by decide)

/-- C4: a delivery attempt with any non-success outcome leaves the seen-set
and `postsSent` unchanged (the identity is not added, so the item stays
eligible for the next run) and adds nothing to the delivered list; only the
attempt itself is recorded. -/
theorem c4_failure_not_marked_seen (send : Item → Nat → SendResult) (N : Nat)
    (r : RunResult) (i : Item) (hcap : r.postsSent < N)
    (hunseen : r.state.get (itemId i) = false)
    (hsend : send i (r.attempts.count i) ≠ .success) :
    (processItem send N r i).state = r.state ∧
      (processItem send N r i).postsSent = r.postsSent ∧
      (processItem send N r i).delivered = r.delivered ∧
      (processItem send N r i).attempts = r.attempts ++ [i] ∧
      (processItem send N r i).state.get (itemId i) = false := by
  rw [processItem_notSuccess send N r i hcap hunseen hsend]
  exact ⟨rfl, rfl, rfl, rfl, hunseen⟩

/-- C4 witness: a fresh item whose send fails outright. -/
theorem c4_witness :
    (processItem (fun _ _ => .failed) MAX_POSTS_PER_RUN (.init []) cexItem).state
        = (RunResult.init []).state ∧
      (processItem (fun _ _ => .failed) MAX_POSTS_PER_RUN (.init []) cexItem).postsSent
        = (RunResult.init []).postsSent ∧
      (processItem (fun _ _ => .failed) MAX_POSTS_PER_RUN (.init []) cexItem).delivered
        = (RunResult.init []).delivered ∧
      (processItem (fun _ _ => .failed) MAX_POSTS_PER_RUN (.init []) cexItem).attempts
        = (RunResult.init []).attempts ++ [cexItem] ∧
      (processItem (fun _ _ => .failed) MAX_POSTS_PER_RUN (.init []) cexItem).state.get
        (itemId cexItem) = false :=
  c4_failure_not_marked_seen (fun _ _ => .failed) MAX_POSTS_PER_RUN (.init [])
    cexItem (by decide) rfl (by decide)

/-- C5: when every send succeeds and the feeds offer at least `N` fresh
distinct identities, a run with cap `N` delivers and marks seen exactly `N`
items, every attempted item is a delivered item (iteration stops with the
cap), and the final seen-set marks exactly the loaded identities plus the `N`
delivered ones — the remaining eligible identities are not added. -/
theorem c5_cap_enforced (send : Item → Nat → SendResult) (N : Nat)
    (feeds : List (Option (List Item))) (s0 : SeenSet)
    (hsucc : ∀ i n, send i n = .success)
    (hmany : N ≤ (newIds feeds s0).length) :
    (runMain send N feeds s0).postsSent = N ∧
      (runMain send N feeds s0).delivered.length = N ∧
      (runMain send N feeds s0).attempts = (runMain send N feeds s0).delivered ∧
      (∀ k, (runMain send N feeds s0).state.get k = true ↔
        s0.get k = true ∨ k ∈ (runMain send N feeds s0).delivered.map itemId) := by
  have hsat := runMain_postsSent_saturated send N hsucc feeds s0 hmany
  obtain ⟨hiff, hcount, _⟩ := runMain_inv send N feeds s0
  exact ⟨hsat, by omega, runMain_attempts_eq_delivered send N hsucc feeds s0, hiff⟩

/-- C5 witness: cap 1 against a single-item feed with one fresh identity. -/
theorem c5_witness :
    (runMain sendAlwaysOk 1 [some [cexItem]] []).postsSent = 1 ∧
      (runMain sendAlwaysOk 1 [some [cexItem]] []).delivered.length = 1 ∧
      (runMain sendAlwaysOk 1 [some [cexItem]] []).attempts =
        (runMain sendAlwaysOk 1 [some [cexItem]] []).delivered ∧
      (∀ k, (runMain sendAlwaysOk 1 [some [cexItem]] []).state.get k = true ↔
        SeenSet.get [] k = true ∨
          k ∈ (runMain sendAlwaysOk 1 [some [cexItem]] []).delivered.map itemId) :=
  c5_cap_enforced sendAlwaysOk 1 [some [cexItem]] [] (fun _ _ => rfl) (by decide)

/-- C6: a feed whose parser returns its items in feed-declared (newest-first)
order has its fresh, pairwise-distinct items attempted in exactly the reverse
(oldest-first) order when they fit under the cap: a feed `[C, B, A]` is
attempted as `A, B, C`. -/
theorem c6_oldest_first_attempt_order (send : Item → Nat → SendResult) (N : Nat)
    (items : List Item) (s0 : SeenSet)
    (hunseen : ∀ i ∈ items, s0.get (itemId i) = false)
    (hnd : (items.map itemId).Nodup) (hlen : items.length ≤ N) :
    (runMain send N [some items] s0).attempts = items.reverse := by
  by_cases hN : N ≤ 0
  · have hnil : items = [] := by
      cases items with
      | nil => rfl
      | cons a rest =>
          exfalso
          simp only [List.length_cons] at hlen
          omega
    subst hnil
    show (processFeed send N (.init s0) (some [])).attempts = List.reverse []
    by_cases hcap0 : N ≤ (RunResult.init s0).postsSent
    · rw [processFeed_capped send N _ _ hcap0]
      rfl
    · rw [processFeed_some send N _ [] hcap0]
      rfl
  · show (processFeed send N (.init s0) (some items)).attempts = items.reverse
    rw [processFeed_some send N _ items (by simpa [RunResult.init] using hN)]
    rw [processItems_attempts_ordered send N items.reverse (.init s0) ?_ ?_ ?_]
    · rfl
    · intro i hi
      show s0.get (itemId i) = false
      exact hunseen i (List.mem_reverse.mp hi)
    · rw [List.map_reverse, List.nodup_reverse]
      exact hnd
    · simpa [RunResult.init] using hlen

/-- C6 witness: a single fresh item is attempted in reverse order. -/
theorem c6_witness :
    (runMain cexSend MAX_POSTS_PER_RUN [some [cexItem]] []).attempts =
      [cexItem].reverse :=
  c6_oldest_first_attempt_order cexSend MAX_POSTS_PER_RUN [cexItem] []
    (fun i _ => rfl) (by simp) (by decide)

/-- C7 counterexample: a readable state file holding the syntactically valid
but ill-typed JSON object with entries `a: true` and `b: 1` — malformed
content, not a well-formed snapshot — loads as the non-empty seen-set
`[("a", true)]`: Go's `json.Unmarshal` stores the well-typed entry and the
code discards the reported error, refuting both "malformed content loads as
the empty set" and "only a well-formed snapshot yields a non-empty set". -/
theorem c7_counterexample :
    loadState (.mistyped [("a", true)]) = [("a", true)] ∧
      loadState (.mistyped [("a", true)]) ≠ [] ∧
      ∀ m, (FileContent.mistyped [("a", true)]) ≠ .snapshot m := by
  refine ⟨rfl, by decide, ?_⟩
  intro m h
  exact FileContent.noConfusion h

/-- C7 (amended): `loadState` is total — it never raises an error; an absent
or unreadable file and syntactically invalid JSON (rejected by
`json.Unmarshal` before anything is decoded) all load as the empty seen-set;
but readable, syntactically valid JSON that is not a well-typed snapshot is
partially decoded — the well-typed boolean entries are kept and the error
discarded — so malformed content can load as a non-empty, even seen-marked,
set; a well-formed snapshot loads exactly, and any non-empty result comes
from a well-formed snapshot or from such a partial decode. -/
theorem c7_amended_load_total_partial_decode :
    loadState .absent = [] ∧ loadState .unreadable = [] ∧
      loadState .invalidJSON = [] ∧
      (∀ d, loadState (.mistyped d) = d) ∧
      (∀ m, loadState (.snapshot m) = m) ∧
      ∀ fc : FileContent, loadState fc ≠ [] →
        (∃ m, fc = .snapshot m) ∨ ∃ d, fc = .mistyped d := by
  refine ⟨rfl, rfl, rfl, fun d => rfl, fun m => rfl, ?_⟩
  intro fc h
  cases fc with
  | absent => exact absurd rfl h
  | unreadable => exact absurd rfl h
  | invalidJSON => exact absurd rfl h
  | mistyped decoded => exact Or.inr ⟨decoded, rfl⟩
  | snapshot m => exact Or.inl ⟨m, rfl⟩

/-- C7 witness: a concrete non-empty load, coming from a partial decode. -/
theorem c7_witness :
    (∃ m, (FileContent.mistyped [("a", true)]) = .snapshot m) ∨
      ∃ d, (FileContent.mistyped [("a", true)]) = .mistyped d :=
  c7_amended_load_total_partial_decode.2.2.2.2.2
    (.mistyped [("a", true)]) (by decide)

/-- C8: the in-memory seen-set only grows: a single item step of the run
controller preserves every identity already marked seen, and hence a whole
run's final seen-set marks everything the loaded set marked. -/
theorem c8_seen_set_monotone (send : Item → Nat → SendResult) (N : Nat) :
    (∀ (r : RunResult) (i : Item) (k : String), r.state.get k = true →
        (processItem send N r i).state.get k = true) ∧
      (∀ (feeds : List (Option (List Item))) (s0 : SeenSet) (k : String),
        s0.get k = true → (runMain send N feeds s0).state.get k = true) := by
  constructor
  · exact fun r i k h => processItem_get_mono send N r i k h
  · intro feeds s0 k h
    exact foldFeeds_get_mono send N (.init s0) feeds k h

/-- C8 witness: an identity seen at load is still seen after a run that
processes a fresh item. -/
theorem c8_witness :
    (runMain sendAlwaysOk MAX_POSTS_PER_RUN [some [cexItem]]
      [("k0", true)]).state.get "k0" = true :=
  (c8_seen_set_monotone sendAlwaysOk MAX_POSTS_PER_RUN).2
    [some [cexItem]] [("k0", true)] "k0" (by decide)

/-- C9: the identity hasher is a pure, deterministic function — equal input
text yields equal digests — and two items that agree on title and link (so
differ at most in their description) get the same identity, which is a
64-character string of lowercase hexadecimal digits. -/
theorem c9_identity_deterministic_hex :
    (∀ s t : String, s = t → hash s = hash t) ∧
      (∀ a b : Item, a.title = b.title → a.link = b.link →
        itemId a = itemId b ∧ (itemId a).length = 64 ∧
          ∀ c ∈ (itemId a).data, isHexChar c = true) := by
  constructor
  · intro s t h
    rw [h]
  · intro a b _ hl
    refine ⟨?_, hash_length _, hash_chars_hex _⟩
    unfold itemId
    rw [hl]

/-- C9 witness: two items differing only in description share an identity. -/
theorem c9_witness :
    itemId ⟨"t", "https://x/y", "d1"⟩ = itemId ⟨"t", "https://x/y", "d2"⟩ ∧
      (itemId ⟨"t", "https://x/y", "d1"⟩).length = 64 :=
  ⟨(c9_identity_deterministic_hex.2 ⟨"t", "https://x/y", "d1"⟩
      ⟨"t", "https://x/y", "d2"⟩ rfl rfl).1,
    (c9_identity_deterministic_hex.2 ⟨"t", "https://x/y", "d1"⟩
      ⟨"t", "https://x/y", "d2"⟩ rfl rfl).2.1⟩

/-- C10: saving a seen-set and loading the written file back yields the same
mapping: the result is a permutation of the saved entries (the snapshot
serializes the map with sorted keys), and, the keys being pairwise distinct as
in every Go map, every lookup agrees with the original. -/
theorem c10_save_load_roundtrip (m : SeenSet)
    (hnd : (m.map Prod.fst).Nodup) :
    (loadState (saveState m)).Perm m ∧
      ∀ k, (loadState (saveState m)).get k = m.get k := by
  have hp : (loadState (saveState m)).Perm m := sortByKey_perm m
  refine ⟨hp, fun k => ?_⟩
  exact SeenSet.get_eq_of_perm hp.symm hnd k

/-- C10 witness: a concrete two-entry seen-set round-trips. -/
theorem c10_witness :
    (loadState (saveState [("b", true), ("a", false)])).Perm
        [("b", true), ("a", false)] ∧
      ∀ k, (loadState (saveState [("b", true), ("a", false)])).get k =
        SeenSet.get [("b", true), ("a", false)] k :=
  c10_save_load_roundtrip [("b", true), ("a", false)] (by decide)

end RSSBot
